import Mathlib

/-!
Verification development for yum_distro_cleaner.py, a distribution Yum
repositories cleaning utility.  The Python source is shallowly embedded:
pure fragments become Lean functions, the in-memory sqlite tables become
lists, and external collaborators (the rpm version comparator, the
createrepo_c subprocess, the regular-expression engine) are modelled
explicitly where the claims need them.
-/

/-! ## Version comparator

`labelCompare` is imported by the source from the external `rpm` library
(line 21) and is not part of this repository.  It is modelled from the
specification, section 4.1: an EVR triple compares by epoch as integers
first, then by the version string, then by the release string, where a
string splits into maximal alphabetic and numeric segments, numeric
segments beat alphabetic ones, numeric segments compare as integers with
leading zeros stripped, alphabetic segments compare bytewise, the tilde
sorts below everything including end of string, and end of string sorts
below any other remaining content. -/

/-- A segment token of a version string: a tilde marker, a maximal
alphabetic run (kept as byte values), or a maximal numeric run (kept as
the denoted integer, which strips leading zeros). -/
inductive Tok where
  | tilde : Tok
  | alpha : List Nat → Tok
  | num : Nat → Tok
deriving DecidableEq, Repr

/-- Three-way integer comparison on naturals, returning -1, 0 or 1. -/
def cmpNat (m n : Nat) : Int :=
  if m < n then -1 else if n < m then 1 else 0

/-- Bytewise lexicographic comparison of two alphabetic segments
(strcmp semantics: a strict prefix is smaller). -/
def cmpNatList : List Nat → List Nat → Int
  | [], [] => 0
  | [], _ :: _ => -1
  | _ :: _, [] => 1
  | a :: as, b :: bs => if cmpNat a b = 0 then cmpNatList as bs else cmpNat a b

/-- Comparison of one token position; `none` stands for end of string.
Tilde sorts below everything, end of string below alphabetic and numeric
content, numeric segments above alphabetic ones. -/
def cmp1 : Option Tok → Option Tok → Int
  | none, none => 0
  | none, some Tok.tilde => 1
  | none, some (Tok.alpha _) => -1
  | none, some (Tok.num _) => -1
  | some Tok.tilde, none => -1
  | some Tok.tilde, some Tok.tilde => 0
  | some Tok.tilde, some (Tok.alpha _) => -1
  | some Tok.tilde, some (Tok.num _) => -1
  | some (Tok.alpha _), none => 1
  | some (Tok.alpha _), some Tok.tilde => 1
  | some (Tok.alpha s), some (Tok.alpha t) => cmpNatList s t
  | some (Tok.alpha _), some (Tok.num _) => -1
  | some (Tok.num _), none => 1
  | some (Tok.num _), some Tok.tilde => 1
  | some (Tok.num _), some (Tok.alpha _) => 1
  | some (Tok.num m), some (Tok.num n) => cmpNat m n

/-- Lexicographic comparison of two token streams using `cmp1`. -/
def cmpToks : List Tok → List Tok → Int
  | [], [] => 0
  | [], y :: _ => cmp1 none (some y)
  | x :: _, [] => cmp1 (some x) none
  | x :: xs, y :: ys =>
    if cmp1 (some x) (some y) = 0 then cmpToks xs ys else cmp1 (some x) (some y)

/-- Prepends a pending partially built token, if any, to a token list. -/
def pushTok : Option Tok → List Tok → List Tok
  | none, ts => ts
  | some t, ts => t :: ts

/-- Tokenizer worker: walks the characters keeping the token being built.
Non-alphanumeric characters other than the tilde separate segments and
are otherwise ignored. -/
def tokGo : Option Tok → List Char → List Tok
  | cur, [] => pushTok cur []
  | cur, c :: cs =>
    if c = '~' then pushTok cur (Tok.tilde :: tokGo none cs)
    else if c.isDigit then
      match cur with
      | some (Tok.num n) => tokGo (some (Tok.num (n * 10 + (c.toNat - 48)))) cs
      | _ => pushTok cur (tokGo (some (Tok.num (c.toNat - 48))) cs)
    else if c.isAlpha then
      match cur with
      | some (Tok.alpha s) => tokGo (some (Tok.alpha (s ++ [c.toNat]))) cs
      | _ => pushTok cur (tokGo (some (Tok.alpha [c.toNat])) cs)
    else pushTok cur (tokGo none cs)

/-- Splits a version or release string into its segment tokens. -/
def tokenize (s : List Char) : List Tok := tokGo none s

/-- An epoch-version-release triple as the engine handles it: the epoch is
the integer stored in the packages table, version and release are the
stored strings. -/
structure EVR where
  epoch : Nat
  version : String
  rel : String
deriving DecidableEq, Repr

/-- The comparison key of an EVR: epoch plus the token streams of the
version and release strings. -/
def evrKey (a : EVR) : Nat × List Tok × List Tok :=
  (a.epoch, tokenize a.version.data, tokenize a.rel.data)

/-- Lexicographic comparison of two EVR keys: epoch first as integers,
then version tokens, then release tokens. -/
def cmpTriple (x y : Nat × List Tok × List Tok) : Int :=
  if cmpNat x.1 y.1 = 0 then
    (if cmpToks x.2.1 y.2.1 = 0 then cmpToks x.2.2 y.2.2 else cmpToks x.2.1 y.2.1)
  else cmpNat x.1 y.1

/-- The rpm label comparison on EVR triples, modelled from the
specification, section 4.1.  The source calls it with the epoch converted
through str, which compares decimal strings exactly as the integers
themselves. -/
def labelCompare (a b : EVR) : Int := cmpTriple (evrKey a) (evrKey b)

/-! ## Python string helpers

`splitFilename` comes from the external rpmUtils library (line 22 of the
source).  It is reproduced faithfully, including the Python slice and
find conventions with their negative-index behaviour, because the
grouping key of the cleanup loop is built from its output. -/

/-- Converts a Python slice bound into an absolute position in a list of
the given length. -/
def pyIndex (len : Nat) (i : Int) : Nat :=
  if i < 0 then ((len : Int) + i).toNat else min i.toNat len

/-- Python slice s[a:b] on a character list. -/
def pySlice (s : List Char) (a b : Int) : List Char :=
  (s.take (pyIndex s.length b)).drop (pyIndex s.length a)

/-- Python str.find for a single character: first index or -1. -/
def pyFind (s : List Char) (c : Char) : Int :=
  match s.findIdx? (· == c) with
  | some i => (i : Int)
  | none => -1

/-- Python str.rfind for a single character: last index or -1. -/
def pyRFind (s : List Char) (c : Char) : Int :=
  match s.reverse.findIdx? (· == c) with
  | some i => (s.length : Int) - 1 - i
  | none => -1

/-- The five fields rpmUtils splitFilename returns for an rpm file name. -/
structure SrpmParts where
  name : String
  ver : String
  rel : String
  epoch : String
  arch : String
deriving DecidableEq, Repr

/-- Model of rpmUtils.miscutils.splitFilename: strips a .rpm suffix, then
takes the architecture after the last dot, the release between the last
two dashes, the version before it, and an optional epoch before a colon. -/
def splitFilename (fn : String) : SrpmParts :=
  let l0 := fn.data
  let l := if pySlice l0 (-4) l0.length = ".rpm".data then pySlice l0 0 (-4) else l0
  let archIndex : Int := pyRFind l '.'
  let arch := pySlice l (archIndex + 1) l.length
  let head1 := pySlice l 0 archIndex
  let relIndex : Int := pyRFind head1 '-'
  let rel := pySlice l (relIndex + 1) archIndex
  let head2 := pySlice l 0 relIndex
  let verIndex : Int := pyRFind head2 '-'
  let ver := pySlice l (verIndex + 1) relIndex
  let epochIndex : Int := pyFind l ':'
  let epoch := if epochIndex = -1 then [] else pySlice l 0 epochIndex
  let name := pySlice l (epochIndex + 1) verIndex
  ⟨String.mk name, String.mk ver, String.mk rel, String.mk epoch, String.mk arch⟩

/-! ## Data model -/

/-- Repository channel, lines 25-35 of the source. -/
inductive Channel where
  | STABLE : Channel
  | BETA : Channel
deriving DecidableEq, Repr

/-- Removal reason, lines 38-47 of the source. -/
inductive RemovalReason where
  | EXPIRED_BY_STABLE : RemovalReason
  | OUTDATED : RemovalReason
deriving DecidableEq, Repr

/-- Human readable reason text, lines 42-47 of the source. -/
def RemovalReason.text : RemovalReason → String
  | RemovalReason.EXPIRED_BY_STABLE => "obsoleted by stable"
  | RemovalReason.OUTDATED => "outdated"

/-- A row of the repositories table (lines 377-384) together with the data
the cleaner keeps for it in its repos dictionary (lines 256-267). -/
structure Repo where
  repo_id : Nat
  name : String
  arch : String
  path : String
  channel : Channel
  readonly : Bool
deriving DecidableEq, Repr

/-- A row of the packages table, lines 386-397 of the source.  The
sourcerpm column is nullable; a null value is what makes the splitFilename
call of the cleanup loop fail. -/
structure Pkg where
  name : String
  epoch : Nat
  version : String
  rel : String
  arch : String
  sourcerpm : Option String
  location : String
  repo_id : Nat
deriving DecidableEq, Repr

/-- A removal decision: the package singled out by the per-package loop of
cleanup_version together with the reason passed in. -/
abbrev Decision := Pkg × RemovalReason

/-- The fields the createrepo_c parser hands to the insertion callback,
lines 289-309 of the source. -/
structure CrPkg where
  name : String
  epoch : Nat
  version : String
  release : String
  arch : String
  rpm_sourcerpm : Option String
  location_href : String
deriving DecidableEq, Repr

/-! ## Package index (lines 289-309, 357-373)

The compiled regular expression of the distribution is modelled as an
abstract predicate on strings: the claims only depend on whether a source
file name matches, not on the regex engine itself. -/

/-- Model of DistroCleaner.__is_srpm_excluded, lines 357-373: true when an
exclusion pattern is configured and it matches the source rpm name. -/
def is_srpm_excluded (excludeRe : Option (String → Bool)) (srpmName : String) : Bool :=
  match excludeRe with
  | some f => f srpmName
  | none => false

/-- The packages-table row built from a parsed package, lines 303-309. -/
def pkgOfRecord (repoId : Nat) (p : CrPkg) : Pkg :=
  ⟨p.name, p.epoch, p.version, p.release, p.arch, p.rpm_sourcerpm, p.location_href, repoId⟩

/-- Model of DistroCleaner.__save_repo_package, lines 289-309: the packages
table is a list of rows; a package whose non-empty sourcerpm matches the
exclusion pattern is not inserted, every other package is appended. -/
def save_repo_package (excludeRe : Option (String → Bool)) (table : List Pkg)
    (repoId : Nat) (p : CrPkg) : List Pkg :=
  match p.rpm_sourcerpm with
  | some s =>
    if s ≠ "" ∧ is_srpm_excluded excludeRe s = true then table
    else table ++ [pkgOfRecord repoId p]
  | none => table ++ [pkgOfRecord repoId p]

/-! ## Retention engine (lines 123-246) -/

/-- The EVR triple of a package row, as read at lines 183-184. -/
def evrOf (p : Pkg) : EVR := ⟨p.epoch, p.version, p.rel⟩

/-- The stable repository ids of the architecture, lines 169-170. -/
def stableIds (repos : List Repo) : List Nat :=
  (repos.filter (fun r => r.channel = Channel.STABLE)).map (fun r => r.repo_id)

/-- Model of DistroCleaner.sort_by_rpm_name, lines 351-355: the raw
comparison the per-group sort uses. -/
def sort_by_rpm_name (srpmName : String) (a b : Pkg) : Int :=
  if a.name = srpmName then 1 else if b.name = srpmName then -1 else 0

/-- The result of ver_packages.sort(cmp=sort_by_rpm_name, reverse=True) at
lines 177-180.  Under sort_by_rpm_name the strict order seen by the sort
is a strict weak order with exactly two classes (name equals the srpm
name, or not), so the stable descending sort moves the matching packages
to the front and otherwise keeps insertion order. -/
def repOrder (srpmName : String) (g : List Pkg) : List Pkg :=
  g.filter (fun p => p.name = srpmName) ++ g.filter (fun p => ¬ p.name = srpmName)

/-- The representative EVR of a version group: the EVR of its first
package (the groups built by the cleanup loop are never empty, so the
default is never read). -/
def grpEVR (g : List Pkg) : EVR :=
  match g.head? with
  | some p => evrOf p
  | none => ⟨0, "", ""⟩

/-- Insertion into a descending-sorted group list, keeping earlier groups
first on ties, as the stable Python sort at lines 195-201 does. -/
def insertDesc (x : List Pkg) : List (List Pkg) → List (List Pkg)
  | [] => [x]
  | y :: ys =>
    if labelCompare (grpEVR x) (grpEVR y) ≥ 0 then x :: y :: ys else y :: insertDesc x ys

/-- The stable descending sort of version groups by representative EVR,
lines 195-201.  A stable sort for a total preorder is unique, so insertion
sort reproduces the Python sort. -/
def sortDesc : List (List Pkg) → List (List Pkg)
  | [] => []
  | x :: xs => insertDesc x (sortDesc xs)

/-- One step of the latest-stable scan, lines 182-194: the first group
seen initializes the value unconditionally, after that only a main
package living in a stable repository and comparing strictly greater
replaces it. -/
def scanStep (ids : List Nat) (acc : Option EVR) (g : List Pkg) : Option EVR :=
  match g.head? with
  | none => acc
  | some m =>
    match acc with
    | none => some (evrOf m)
    | some l =>
      if m.repo_id ∈ ids ∧ labelCompare l (evrOf m) < 0 then some (evrOf m) else some l

/-- The latest_stable_evr value computed by the loop at lines 171-194,
over the version groups in dictionary iteration order. -/
def scanLatest (ids : List Nat) (groups : List (List Pkg)) : Option EVR :=
  groups.foldl (scanStep ids) none

/-- Lookup in the repos dictionary of the cleaner, line 230. -/
def findRepo (repos : List Repo) (id : Nat) : Option Repo :=
  repos.find? (fun r => r.repo_id == id)

/-- The packages a cleanup_version call actually removes, lines 228-246:
none when the repository of the first package is readonly, otherwise every
package of the group.  Empty groups and unknown repositories cannot occur
in the engine. -/
def removal_targets (repos : List Repo) (packages : List Pkg) : List Pkg :=
  match packages.head? with
  | none => []
  | some p0 =>
    match findRepo repos p0.repo_id with
    | none => []
    | some repo => if repo.readonly then [] else packages

/-- The expiry condition of lines 203-209: the group head is not in a
stable repository and the latest stable EVR compares strictly greater. -/
def expiredCond (ids : List Nat) (lse : EVR) (g : List Pkg) : Bool :=
  match g.head? with
  | none => false
  | some p => (decide (p.repo_id ∉ ids)) && (decide (labelCompare lse (evrOf p) > 0))

/-- Whether a group head belongs to a stable repository, line 219. -/
def isStableHead (ids : List Nat) (g : List Pkg) : Bool :=
  match g.head? with
  | none => false
  | some p => decide (p.repo_id ∈ ids)

/-- Model of DistroCleaner.__cleanup_previous_versions, lines 155-226,
returning the removal decisions in emission order.  The versions argument
lists the version groups in the dictionary iteration order of the Python
dict (an arbitrary but fixed order determined by string hashing). -/
def cleanup_previous_versions (repos : List Repo) (keepBeta keepStable : Nat)
    (srpmName : String) (versions : List (List Pkg)) : List Decision :=
  let ids := stableIds repos
  let ord0 := versions.map (repOrder srpmName)
  match scanLatest ids ord0 with
  | none => []
  | some lse =>
    let ord := sortDesc ord0
    let expired := ord.filter (expiredCond ids lse)
    let remaining := ord.filter (fun g => ¬ expiredCond ids lse g)
    let beta := remaining.filter (fun g => ¬ isStableHead ids g)
    let stable := remaining.filter (isStableHead ids)
    (expired.flatMap (fun g =>
      (removal_targets repos g).map (fun p => (p, RemovalReason.EXPIRED_BY_STABLE))))
    ++ ((beta.drop keepBeta).flatMap (fun g =>
      (removal_targets repos g).map (fun p => (p, RemovalReason.OUTDATED))))
    ++ ((stable.drop keepStable).flatMap (fun g =>
      (removal_targets repos g).map (fun p => (p, RemovalReason.OUTDATED))))

/-- The version-group key of a source rpm file name: the version and
release parsed from the file name, line 148 of the source.  The epoch of
the package plays no part in it. -/
def versionKeyPair (s : String) : String × String :=
  ((splitFilename s).ver, (splitFilename s).rel)

/-- The source rpm name a package row is grouped under, lines 131-132. -/
def srpmNameOf (p : Pkg) : Option String :=
  p.sourcerpm.map (fun s => (splitFilename s).name)

/-- The version-group key of a package row, when its sourcerpm parses. -/
def pkgKey (p : Pkg) : Option (String × String) :=
  p.sourcerpm.map versionKeyPair

/-- Appending a package to the versions dictionary, lines 148-153: an
existing version key collects the package at its position, a new key is
appended in insertion order. -/
def addTo : List ((String × String) × List Pkg) → (String × String) → Pkg →
    List ((String × String) × List Pkg)
  | [], k, p => [(k, [p])]
  | (k1, l) :: rest, k, p =>
    if k1 = k then (k1, l ++ [p]) :: rest else (k1, l) :: addTo rest k p

/-- All packages stored in a versions dictionary. -/
def pkgsOfVersions (versions : List ((String × String) × List Pkg)) : List Pkg :=
  versions.flatMap (fun e => e.2)

/-- The version-group dictionary built for the rows of one source-name
run, lines 129-153: rows whose sourcerpm does not parse (a null column)
are skipped, the rest are grouped by the (version, release) pair of their
source rpm file name. -/
def buildVersions (rows : List Pkg) : List ((String × String) × List Pkg) :=
  rows.foldl (fun vs p =>
    match p.sourcerpm with
    | none => vs
    | some s => addTo vs (versionKeyPair s) p) []

/-- The body of the row loop of DistroCleaner.__cleanup_arch, lines
127-153: rows arrive ordered by sourcerpm from the query; a change of
source rpm name flushes the accumulated version groups through
cleanup_previous_versions when there is more than one of them.  After the
last row the loop simply ends, so the final accumulated group is never
flushed. -/
def cleanupArchGo (repos : List Repo) (keepBeta keepStable : Nat) :
    Option String → List ((String × String) × List Pkg) → List Pkg → List Decision
  | _, _, [] => []
  | last, versions, p :: ps =>
    match p.sourcerpm with
    | none => cleanupArchGo repos keepBeta keepStable last versions ps
    | some s =>
      let f := splitFilename s
      if last = some f.name then
        cleanupArchGo repos keepBeta keepStable last (addTo versions (versionKeyPair s) p) ps
      else
        (if versions.length > 1 then
          cleanup_previous_versions repos keepBeta keepStable (last.getD "")
            (versions.map (fun e => e.2))
         else [])
        ++ cleanupArchGo repos keepBeta keepStable (some f.name)
            (addTo [] (versionKeyPair s) p) ps

/-- Model of DistroCleaner.__cleanup_arch, lines 123-153, on the query
result rows (ordered by sourcerpm). -/
def cleanup_arch (repos : List Repo) (keepBeta keepStable : Nat) (rows : List Pkg) :
    List Decision :=
  cleanupArchGo repos keepBeta keepStable none [] rows


/-- Well-formedness of a versions dictionary: every package sits under its
own source-rpm version key, and keys are pairwise distinct. -/
def versionsWF (vs : List ((String × String) × List Pkg)) : Prop :=
  (∀ e ∈ vs, ∀ p ∈ e.2, pkgKey p = some e.1) ∧ (vs.map Prod.fst).Nodup

/-! ## Cleanup executor (lines 228-246, 333-341, 50-69) -/

/-- Ensures a counter entry and adds to it, as lines 236-237 and 246 do
over the per-package loop: the net effect of cleanup_version on the stats
dictionary is one increment per package, all on the repository of the
first package. -/
def bumpStat : List (Nat × Nat) → Nat → Nat → List (Nat × Nat)
  | [], id, n => [(id, n)]
  | e :: rest, id, n =>
    if e.1 = id then (e.1, e.2 + n) :: rest else e :: bumpStat rest id n

/-- Reads a counter, zero when absent. -/
def lookupStat (stats : List (Nat × Nat)) (id : Nat) : Nat :=
  match stats.find? (fun e => e.1 == id) with
  | some e => e.2
  | none => 0

/-- Model of DistroCleaner.__cleanup_version, lines 228-246: when the
repository of the first package is not readonly, every package of the
group is moved from a path resolved against that repository root into the
backup directory named after that repository and its architecture, and
that repository counter grows by the group size.  The result is the list
of (source path, destination directory) moves and the updated stats. -/
def cleanup_version (backupDir : String) (repos : List Repo) (stats : List (Nat × Nat))
    (packages : List Pkg) : List (String × String) × List (Nat × Nat) :=
  match packages.head? with
  | none => ([], stats)
  | some p0 =>
    match findRepo repos p0.repo_id with
    | none => ([], stats)
    | some repo =>
      if repo.readonly then ([], stats)
      else
        (packages.map (fun p =>
          (repo.path ++ "/" ++ p.location,
           backupDir ++ "/" ++ repo.name ++ "/" ++ repo.arch)),
         bumpStat stats repo.repo_id packages.length)

/-- Model of create_repo, lines 50-69: the createrepo_c subprocess is an
external collaborator represented by its return code; a non-zero return
code raises. -/
def create_repo (run : String → Nat) (path : String) : Except String Unit :=
  if run path ≠ 0 then Except.error ("cannot createrepo " ++ path) else Except.ok ()

/-- Model of DistroCleaner.__update_repodata, lines 333-341, on the paths
of the repositories with a non-zero removed count: each path is handed to
create_repo in turn; the raise of a failing call propagates, so the loop
stops at the first failure.  The result lists the paths actually attempted
and whether the loop was aborted by an error. -/
def update_repodata (run : String → Nat) : List String → List String × Bool
  | [] => ([], false)
  | p :: ps =>
    match create_repo run p with
    | Except.error _ => ([p], true)
    | Except.ok _ =>
      let r := update_repodata run ps
      (p :: r.1, r.2)

/-! ## Spec-side definitions for refinement comparison -/

/-- The representative EVRs of the groups whose head package lives in a
stable repository. -/
def stableHeadEVRs (ids : List Nat) (groups : List (List Pkg)) : List EVR :=
  groups.filterMap (fun g =>
    match g.head? with
    | none => none
    | some m => if m.repo_id ∈ ids then some (evrOf m) else none)

/-- The EVR values the latest-stable scan can produce: the representative
EVR of the first group regardless of channel, and the representative EVRs
of later groups whose representative lives in a stable repository. -/
def candidateEVRs (ids : List Nat) (groups : List (List Pkg)) : List EVR :=
  match groups with
  | [] => []
  | g :: gs =>
    (match g.head? with
     | none => []
     | some m => [evrOf m]) ++ stableHeadEVRs ids gs

/-- Modelled from the spec: section 4.3 step 5 defines latestStableEVR as
the maximum EVR, under the comparator, among representatives of version
groups that contain at least one package belonging to a Stable-channel
repository.  This definition follows those words and exists only to be
compared against the scan the source performs. -/
def specLatestStable (repos : List Repo) (srpmName : String)
    (versions : List (List Pkg)) : Option EVR :=
  let ids := stableIds repos
  let stGroups := versions.filter (fun g => g.any (fun p => decide (p.repo_id ∈ ids)))
  let reps := stGroups.filterMap (fun g => (repOrder srpmName g).head?)
  match reps with
  | [] => none
  | r :: rs =>
    some (rs.foldl (fun acc m =>
      if labelCompare acc (evrOf m) < 0 then evrOf m else acc) (evrOf r))

/-! ## Concrete fixtures used by the claim theorems -/

/-- A stable, writable repository. -/
def rS : Repo := ⟨1, "os", "x86_64", "/r/os", Channel.STABLE, false⟩

/-- A beta, writable repository. -/
def rB : Repo := ⟨2, "beta", "x86_64", "/r/beta", Channel.BETA, false⟩

/-- The EVR 10 build in the stable repository. -/
def s10 : Pkg := ⟨"foo", 0, "10", "1", "x86_64", some "foo-10-1.src.rpm", "foo-10-1.x86_64.rpm", 1⟩

/-- The EVR 10 build mirrored in the beta repository. -/
def b10 : Pkg := ⟨"foo", 0, "10", "1", "x86_64", some "foo-10-1.src.rpm", "foo-10-1.x86_64.rpm", 2⟩

/-- The EVR 8 build in the beta repository. -/
def b8 : Pkg := ⟨"foo", 0, "8", "1", "x86_64", some "foo-8-1.src.rpm", "foo-8-1.x86_64.rpm", 2⟩

/-- The EVR 9 build in the beta repository. -/
def b9 : Pkg := ⟨"foo", 0, "9", "1", "x86_64", some "foo-9-1.src.rpm", "foo-9-1.x86_64.rpm", 2⟩

/-- A beta-only repository for the no-stable scenario. -/
def onlyB : Repo := ⟨1, "beta", "x86_64", "/r/beta", Channel.BETA, false⟩

/-- The EVR 2 build of the beta-only scenario. -/
def q2 : Pkg := ⟨"foo", 0, "2", "1", "x86_64", some "foo-2-1.src.rpm", "foo-2-1.x86_64.rpm", 1⟩

/-- The EVR 1 build of the beta-only scenario. -/
def q1 : Pkg := ⟨"foo", 0, "1", "1", "x86_64", some "foo-1-1.src.rpm", "foo-1-1.x86_64.rpm", 1⟩

/-- A writable stable repository for the readonly scenario. -/
def c4S : Repo := ⟨1, "os", "x86_64", "/r/os", Channel.STABLE, false⟩

/-- A readonly beta repository. -/
def c4B : Repo := ⟨2, "beta", "x86_64", "/r/beta", Channel.BETA, true⟩

/-- The newer stable build that pushes the older group over the
keep-stable cutoff. -/
def sA : Pkg := ⟨"foo", 0, "2", "1", "x86_64", some "foo-2-1.src.rpm", "foo-2-1.x86_64.rpm", 1⟩

/-- The older main build, in the writable stable repository. -/
def s2 : Pkg := ⟨"foo", 0, "1", "1", "x86_64", some "foo-1-1.src.rpm", "foo-1-1.x86_64.rpm", 1⟩

/-- The older sub-package build, in the readonly beta repository. -/
def b2 : Pkg :=
  ⟨"foo-libs", 0, "1", "1", "x86_64", some "foo-1-1.src.rpm", "foo-libs-1-1.x86_64.rpm", 2⟩

/-- The stable EVR 5 group representative of the latest-stable scenario. -/
def pf5 : Pkg := ⟨"foo", 0, "5", "1", "x86_64", some "foo-5-1.src.rpm", "foo-5-1.x86_64.rpm", 1⟩

/-- The beta sub-package of EVR 9 that heads the straddling group. -/
def pb9 : Pkg :=
  ⟨"foo-sub", 0, "9", "1", "x86_64", some "foo-9-1.src.rpm", "foo-sub-9-1.x86_64.rpm", 2⟩

/-- The stable sub-package of EVR 9 inside the straddling group. -/
def ps9 : Pkg :=
  ⟨"foo-sub2", 0, "9", "1", "x86_64", some "foo-9-1.src.rpm", "foo-sub2-9-1.x86_64.rpm", 1⟩

/-- An epoch 0 package of source key (1.0, 1). -/
def cp1 : Pkg := ⟨"foo", 0, "1.0", "1", "x86_64", some "foo-1.0-1.src.rpm", "a.rpm", 1⟩

/-- An epoch 1 package of the same source key (1.0, 1). -/
def cp2 : Pkg := ⟨"foo", 1, "1.0", "1", "x86_64", some "foo-1.0-1.src.rpm", "b.rpm", 1⟩

/-- A parsed package whose source rpm matches the exclusion pattern. -/
def recX : CrPkg := ⟨"bar", 0, "1", "1", "x86_64", some "bar-1-1.src.rpm", "bar-1-1.x86_64.rpm"⟩


/-- A version 1 build of source aaa, used to form a flushable source group
ahead of the final one. -/
def a1 : Pkg := ⟨"aaa", 0, "1", "1", "x86_64", some "aaa-1-1.src.rpm", "aaa-1-1.x86_64.rpm", 1⟩

/-- A version 2 build of source aaa. -/
def a2 : Pkg := ⟨"aaa", 0, "2", "1", "x86_64", some "aaa-2-1.src.rpm", "aaa-2-1.x86_64.rpm", 1⟩

/-- The single build of source zzz, the last source group of the scan. -/
def z1 : Pkg := ⟨"zzz", 0, "1", "1", "x86_64", some "zzz-1-1.src.rpm", "zzz-1-1.x86_64.rpm", 1⟩

/-! ### Order facts about the comparator -/

theorem cmpNat_values (m n : Nat) : cmpNat m n = -1 ∨ cmpNat m n = 0 ∨ cmpNat m n = 1 := by
  unfold cmpNat; split_ifs <;> simp

theorem cmpNat_refl (m : Nat) : cmpNat m m = 0 := by
  unfold cmpNat; split_ifs <;> omega

theorem cmpNat_antisym (m n : Nat) : cmpNat m n = -(cmpNat n m) := by
  unfold cmpNat; split_ifs <;> omega

theorem cmpNat_eq_zero {m n : Nat} (h : cmpNat m n = 0) : m = n := by
  unfold cmpNat at h; split_ifs at h <;> omega

theorem cmpNat_trans_neg (a b c : Nat) (h1 : cmpNat a b = -1) (h2 : cmpNat b c = -1) :
    cmpNat a c = -1 := by
  unfold cmpNat at *; split_ifs at * <;> omega

theorem cmpNatList_values : ∀ a b, cmpNatList a b = -1 ∨ cmpNatList a b = 0 ∨ cmpNatList a b = 1
  | [], [] => by simp [cmpNatList]
  | [], _ :: _ => by simp [cmpNatList]
  | _ :: _, [] => by simp [cmpNatList]
  | a :: as, b :: bs => by
    simp only [cmpNatList]
    split
    · exact cmpNatList_values as bs
    · exact cmpNat_values a b

theorem cmpNatList_refl : ∀ a, cmpNatList a a = 0
  | [] => rfl
  | a :: as => by simp [cmpNatList, cmpNat_refl, cmpNatList_refl as]

theorem cmpNatList_antisym : ∀ a b, cmpNatList a b = -(cmpNatList b a)
  | [], [] => by simp [cmpNatList]
  | [], _ :: _ => by simp [cmpNatList]
  | _ :: _, [] => by simp [cmpNatList]
  | a :: as, b :: bs => by
    simp only [cmpNatList]
    by_cases h : cmpNat a b = 0
    · have h2 : cmpNat b a = 0 := by rw [cmpNat_antisym b a, h]; simp
      rw [if_pos h, if_pos h2]; exact cmpNatList_antisym as bs
    · have h2 : ¬ cmpNat b a = 0 := by
        rw [cmpNat_antisym b a]; simpa using h
      rw [if_neg h, if_neg h2]; exact cmpNat_antisym a b

theorem cmpNatList_eq_zero : ∀ a b, cmpNatList a b = 0 → a = b
  | [], [] => by simp
  | [], _ :: _ => by simp [cmpNatList]
  | _ :: _, [] => by simp [cmpNatList]
  | a :: as, b :: bs => by
    simp only [cmpNatList]
    by_cases h : cmpNat a b = 0
    · rw [if_pos h]; intro h2
      rw [cmpNat_eq_zero h, cmpNatList_eq_zero as bs h2]
    · rw [if_neg h]; intro h2; exact absurd h2 h

theorem cmpNatList_trans_neg :
    ∀ a b c, cmpNatList a b = -1 → cmpNatList b c = -1 → cmpNatList a c = -1
  | [], [], _ => by simp [cmpNatList]
  | [], _ :: _, [] => by intro _ h2; simp [cmpNatList] at h2
  | [], _ :: _, _ :: _ => by intro _ _; rfl
  | _ :: _, [], _ => by intro h1 _; simp [cmpNatList] at h1
  | _ :: _, _ :: _, [] => by intro _ h2; simp [cmpNatList] at h2
  | a :: as, b :: bs, c :: cs => by
    simp only [cmpNatList]
    by_cases hab : cmpNat a b = 0
    · have hEq := cmpNat_eq_zero hab; subst hEq
      rw [if_pos hab]
      by_cases hbc : cmpNat a c = 0
      · rw [if_pos hbc, if_pos hbc]; exact cmpNatList_trans_neg as bs cs
      · rw [if_neg hbc, if_neg hbc]; intro _ h; exact h
    · rw [if_neg hab]; intro h1
      by_cases hbc : cmpNat b c = 0
      · have hEq := cmpNat_eq_zero hbc; subst hEq
        rw [if_neg hab]; intro _; exact h1
      · rw [if_neg hbc]; intro h2
        have h3 := cmpNat_trans_neg a b c h1 h2
        rw [if_neg (by simp [h3])]; exact h3

theorem cmp1_values (x y : Option Tok) : cmp1 x y = -1 ∨ cmp1 x y = 0 ∨ cmp1 x y = 1 := by
  rcases x with _ | (_ | s | n) <;> rcases y with _ | (_ | t | m) <;> simp [cmp1] <;>
    first
      | exact cmpNatList_values _ _
      | exact cmpNat_values _ _

theorem cmp1_refl (x : Option Tok) : cmp1 x x = 0 := by
  rcases x with _ | (_ | s | n) <;> simp [cmp1, cmpNatList_refl, cmpNat_refl]

theorem cmp1_antisym (x y : Option Tok) : cmp1 x y = -(cmp1 y x) := by
  rcases x with _ | (_ | s | n) <;> rcases y with _ | (_ | t | m) <;>
    simp only [cmp1] <;>
    first
      | decide
      | exact cmpNatList_antisym _ _
      | exact cmpNat_antisym _ _

theorem cmp1_eq_zero {x y : Option Tok} (h : cmp1 x y = 0) : x = y := by
  rcases x with _ | (_ | s | n) <;> rcases y with _ | (_ | t | m) <;>
    simp [cmp1] at h ⊢ <;>
    first
      | exact cmpNatList_eq_zero _ _ h
      | exact cmpNat_eq_zero h

theorem cmp1_trans_neg (x y z : Option Tok) (h1 : cmp1 x y = -1) (h2 : cmp1 y z = -1) :
    cmp1 x z = -1 := by
  rcases x with _ | (_ | s | n) <;> rcases y with _ | (_ | t | m) <;>
    rcases z with _ | (_ | u | k) <;> simp_all [cmp1] <;>
    first
      | exact cmpNatList_trans_neg s t u (by assumption) (by assumption)
      | exact cmpNat_trans_neg n m k (by assumption) (by assumption)

theorem cmpToks_values : ∀ a b, cmpToks a b = -1 ∨ cmpToks a b = 0 ∨ cmpToks a b = 1
  | [], [] => by simp [cmpToks]
  | [], y :: _ => by simp only [cmpToks]; exact cmp1_values none (some y)
  | x :: _, [] => by simp only [cmpToks]; exact cmp1_values (some x) none
  | x :: xs, y :: ys => by
    simp only [cmpToks]
    split
    · exact cmpToks_values xs ys
    · exact cmp1_values (some x) (some y)

theorem cmpToks_refl : ∀ a, cmpToks a a = 0
  | [] => rfl
  | x :: xs => by simp [cmpToks, cmp1_refl, cmpToks_refl xs]

theorem cmpToks_antisym : ∀ a b, cmpToks a b = -(cmpToks b a)
  | [], [] => by simp [cmpToks]
  | [], y :: _ => by simp only [cmpToks]; exact cmp1_antisym none (some y)
  | x :: _, [] => by simp only [cmpToks]; exact cmp1_antisym (some x) none
  | x :: xs, y :: ys => by
    simp only [cmpToks]
    by_cases h : cmp1 (some x) (some y) = 0
    · have h2 : cmp1 (some y) (some x) = 0 := by rw [cmp1_antisym (some y) (some x), h]; simp
      rw [if_pos h, if_pos h2]; exact cmpToks_antisym xs ys
    · have h2 : ¬ cmp1 (some y) (some x) = 0 := by
        rw [cmp1_antisym (some y) (some x)]; simpa using h
      rw [if_neg h, if_neg h2]; exact cmp1_antisym (some x) (some y)

theorem cmpToks_eq_zero : ∀ a b, cmpToks a b = 0 → a = b
  | [], [] => by simp
  | [], y :: _ => by
    intro h
    rcases y with _ | s | n <;> simp [cmpToks, cmp1] at h
  | x :: _, [] => by
    intro h
    rcases x with _ | s | n <;> simp [cmpToks, cmp1] at h
  | x :: xs, y :: ys => by
    simp only [cmpToks]
    by_cases h : cmp1 (some x) (some y) = 0
    · rw [if_pos h]; intro h2
      have hx : x = y := Option.some.inj (cmp1_eq_zero h)
      rw [hx, cmpToks_eq_zero xs ys h2]
    · rw [if_neg h]; intro h2; exact absurd h2 h

theorem cmpToks_trans_neg :
    ∀ a b c, cmpToks a b = -1 → cmpToks b c = -1 → cmpToks a c = -1
  | [], [], _ => by simp [cmpToks]
  | [], y :: _, [] => by
    intro h1 h2
    rcases y with _ | s | n <;> simp [cmpToks, cmp1] at h1 h2
  | [], y :: ys, z :: _ => by
    intro h1 h2
    simp only [cmpToks] at h1 h2 ⊢
    rcases y with _ | s | n <;> rcases z with _ | u | k <;>
      simp_all [cmp1]
  | x :: _, [], c => by
    intro h1 h2
    rcases x with _ | s | n <;> simp only [cmpToks, cmp1] at h1 <;>
      [skip; exact absurd h1 (by decide); exact absurd h1 (by decide)]
    rcases c with _ | ⟨z, zs⟩
    · simp [cmpToks] at h2
    · rcases z with _ | u | k <;> simp_all [cmpToks, cmp1]
  | x :: xs, y :: ys, [] => by
    intro h1 h2
    simp only [cmpToks] at h1 h2 ⊢
    rcases x with _ | s | n <;> rcases y with _ | t | m <;>
      simp_all [cmp1]
  | x :: xs, y :: ys, z :: zs => by
    simp only [cmpToks]
    by_cases hxy : cmp1 (some x) (some y) = 0
    · have hx : x = y := Option.some.inj (cmp1_eq_zero hxy)
      subst hx
      rw [if_pos hxy]
      by_cases hyz : cmp1 (some x) (some z) = 0
      · rw [if_pos hyz, if_pos hyz]; exact cmpToks_trans_neg xs ys zs
      · rw [if_neg hyz, if_neg hyz]; intro _ h; exact h
    · rw [if_neg hxy]; intro h1
      by_cases hyz : cmp1 (some y) (some z) = 0
      · have hy : y = z := Option.some.inj (cmp1_eq_zero hyz)
        subst hy
        rw [if_neg hxy]; intro _; exact h1
      · rw [if_neg hyz]; intro h2
        have h3 := cmp1_trans_neg (some x) (some y) (some z) h1 h2
        rw [if_neg (by simp [h3])]; exact h3

theorem cmpTriple_values (x y : Nat × List Tok × List Tok) :
    cmpTriple x y = -1 ∨ cmpTriple x y = 0 ∨ cmpTriple x y = 1 := by
  unfold cmpTriple
  split_ifs
  · exact cmpToks_values _ _
  · exact cmpToks_values _ _
  · exact cmpNat_values _ _

theorem cmpTriple_refl (x : Nat × List Tok × List Tok) : cmpTriple x x = 0 := by
  simp [cmpTriple, cmpNat_refl, cmpToks_refl]

theorem cmpTriple_antisym (x y : Nat × List Tok × List Tok) :
    cmpTriple x y = -(cmpTriple y x) := by
  obtain ⟨a1, a2, a3⟩ := x
  obtain ⟨b1, b2, b3⟩ := y
  by_cases h1 : cmpNat a1 b1 = 0
  · have h1b : cmpNat b1 a1 = 0 := by rw [cmpNat_antisym b1 a1, h1]; simp
    by_cases h2 : cmpToks a2 b2 = 0
    · have h2b : cmpToks b2 a2 = 0 := by rw [cmpToks_antisym b2 a2, h2]; simp
      simp [cmpTriple, h1, h1b, h2, h2b]
      exact cmpToks_antisym a3 b3
    · have h2b : ¬ cmpToks b2 a2 = 0 := by
        rw [cmpToks_antisym b2 a2]; simpa using h2
      simp [cmpTriple, h1, h1b, h2, h2b]
      exact cmpToks_antisym a2 b2
  · have h1b : ¬ cmpNat b1 a1 = 0 := by
      rw [cmpNat_antisym b1 a1]; simpa using h1
    simp [cmpTriple, h1, h1b]
    exact cmpNat_antisym a1 b1

theorem cmpTriple_eq_zero {x y : Nat × List Tok × List Tok} (h : cmpTriple x y = 0) :
    x = y := by
  obtain ⟨a1, a2, a3⟩ := x
  obtain ⟨b1, b2, b3⟩ := y
  by_cases h1 : cmpNat a1 b1 = 0
  · by_cases h2 : cmpToks a2 b2 = 0
    · simp [cmpTriple, h1, h2] at h
      have e1 := cmpNat_eq_zero h1
      have e2 := cmpToks_eq_zero _ _ h2
      have e3 := cmpToks_eq_zero _ _ h
      simp_all
    · simp [cmpTriple, h1, h2] at h
  · simp [cmpTriple, h1] at h

theorem cmpTriple_trans_neg (x y z : Nat × List Tok × List Tok)
    (h1 : cmpTriple x y = -1) (h2 : cmpTriple y z = -1) : cmpTriple x z = -1 := by
  obtain ⟨a1, a2, a3⟩ := x
  obtain ⟨b1, b2, b3⟩ := y
  obtain ⟨c1, c2, c3⟩ := z
  simp only [cmpTriple] at h1 h2 ⊢
  by_cases e1 : cmpNat a1 b1 = 0
  · have q1 := cmpNat_eq_zero e1; subst q1
    rw [if_pos (cmpNat_refl a1)] at h1
    by_cases e2 : cmpNat a1 c1 = 0
    · rw [if_pos e2] at h2 ⊢
      by_cases f1 : cmpToks a2 b2 = 0
      · have r1 := cmpToks_eq_zero _ _ f1; subst r1
        rw [if_pos (cmpToks_refl a2)] at h1
        by_cases f2 : cmpToks a2 c2 = 0
        · rw [if_pos f2] at h2 ⊢
          exact cmpToks_trans_neg _ _ _ h1 h2
        · rw [if_neg f2] at h2 ⊢
          exact h2
      · rw [if_neg f1] at h1
        by_cases f2 : cmpToks b2 c2 = 0
        · have r2 := cmpToks_eq_zero _ _ f2; subst r2
          rw [if_neg f1]
          exact h1
        · rw [if_neg f2] at h2
          have f4 := cmpToks_trans_neg _ _ _ h1 h2
          rw [if_neg (by simp [f4])]
          exact f4
    · rw [if_neg e2] at h2 ⊢
      exact h2
  · rw [if_neg e1] at h1
    by_cases e2 : cmpNat b1 c1 = 0
    · have q2 := cmpNat_eq_zero e2; subst q2
      rw [if_neg e1]
      exact h1
    · rw [if_neg e2] at h2
      have e3 := cmpNat_trans_neg _ _ _ h1 h2
      rw [if_neg (by simp [e3])]
      exact e3

theorem labelCompare_values (a b : EVR) :
    labelCompare a b = -1 ∨ labelCompare a b = 0 ∨ labelCompare a b = 1 :=
  cmpTriple_values _ _

theorem labelCompare_refl (a : EVR) : labelCompare a a = 0 := cmpTriple_refl _

theorem labelCompare_antisym (a b : EVR) : labelCompare a b = -(labelCompare b a) :=
  cmpTriple_antisym _ _

/-- Two EVRs comparing equal have identical comparison keys (which is
weaker than being identical: distinct strings can share a key). -/
theorem labelCompare_eq_zero {a b : EVR} (h : labelCompare a b = 0) :
    evrKey a = evrKey b :=
  cmpTriple_eq_zero h

theorem labelCompare_trans_neg (a b c : EVR)
    (h1 : labelCompare a b = -1) (h2 : labelCompare b c = -1) : labelCompare a c = -1 :=
  cmpTriple_trans_neg _ _ _ h1 h2

theorem labelCompare_le_trans (a b c : EVR)
    (h1 : labelCompare a b ≤ 0) (h2 : labelCompare b c ≤ 0) : labelCompare a c ≤ 0 := by
  rcases labelCompare_values a b with v1 | v1 | v1
  · rcases labelCompare_values b c with v2 | v2 | v2
    · rw [labelCompare_trans_neg a b c v1 v2]; decide
    · have k := labelCompare_eq_zero v2
      unfold labelCompare at v1 ⊢
      rw [← k]; rw [v1]; decide
    · rw [v2] at h2; exact absurd h2 (by decide)
  · have k := labelCompare_eq_zero v1
    unfold labelCompare at h2 ⊢
    rw [k]; exact h2
  · rw [v1] at h1; exact absurd h1 (by decide)

theorem labelCompare_neg_le_trans (a b c : EVR)
    (h1 : labelCompare a b = -1) (h2 : labelCompare b c ≤ 0) : labelCompare a c ≤ 0 :=
  labelCompare_le_trans a b c (by rw [h1]; decide) h2

/-- A strictly negative comparison value is exactly -1. -/
theorem labelCompare_lt_iff (a b : EVR) : labelCompare a b < 0 ↔ labelCompare a b = -1 := by
  rcases labelCompare_values a b with v | v | v <;> rw [v] <;> constructor <;> intro h <;>
    first | rfl | decide | exact absurd h (by decide)

/-- From a non-negative comparison the reverse comparison is non-positive. -/
theorem labelCompare_nonneg_flip {a b : EVR} (h : ¬ labelCompare a b < 0) :
    labelCompare b a ≤ 0 := by
  have := labelCompare_antisym b a
  omega

/-! ### Helper lemmas about the engine -/

theorem flatMap_const_nil {α β : Type} (l : List α) (f : α → List β)
    (h : ∀ x ∈ l, f x = []) : l.flatMap f = [] := by
  induction l with
  | nil => rfl
  | cons a t ih => simp_all

theorem mem_removal_targets {repos : List Repo} {g : List Pkg} {p : Pkg}
    (h : p ∈ removal_targets repos g) : p ∈ g := by
  unfold removal_targets at h
  split at h
  · simp at h
  · split at h
    · simp at h
    · split at h
      · simp at h
      · exact h

theorem removal_targets_all_readonly {repos : List Repo}
    (h : ∀ r ∈ repos, r.readonly = true) (packages : List Pkg) :
    removal_targets repos packages = [] := by
  unfold removal_targets
  split
  · rfl
  · split
    · rfl
    · rename_i p0 hh repo hr
      have hro : repo.readonly = true := h repo (List.mem_of_find?_eq_some hr)
      rw [if_pos hro]

theorem mem_repOrder {srpmName : String} {g : List Pkg} {p : Pkg}
    (h : p ∈ repOrder srpmName g) : p ∈ g := by
  unfold repOrder at h
  rcases List.mem_append.mp h with h2 | h2
  · exact List.mem_of_mem_filter h2
  · exact List.mem_of_mem_filter h2

theorem mem_insertDesc {x g : List Pkg} : ∀ {l : List (List Pkg)},
    g ∈ insertDesc x l → g = x ∨ g ∈ l
  | [], h => by
    simp [insertDesc] at h
    exact Or.inl h
  | y :: ys, h => by
    unfold insertDesc at h
    split at h
    · rw [List.mem_cons] at h
      rcases h with h | h
      · exact Or.inl h
      · exact Or.inr h
    · rw [List.mem_cons] at h
      rcases h with h | h
      · exact Or.inr (by simp [h])
      · rcases mem_insertDesc h with h2 | h2
        · exact Or.inl h2
        · exact Or.inr (by simp [h2])

theorem mem_sortDesc {g : List Pkg} : ∀ {l : List (List Pkg)}, g ∈ sortDesc l → g ∈ l
  | [], h => by simp [sortDesc] at h
  | x :: xs, h => by
    unfold sortDesc at h
    rcases mem_insertDesc h with h2 | h2
    · simp [h2]
    · exact List.mem_cons_of_mem x (mem_sortDesc h2)

theorem targets_decision_mem {repos : List Repo} {g : List Pkg} {reason : RemovalReason}
    {d : Decision} (h : d ∈ (removal_targets repos g).map (fun p => (p, reason))) :
    d.1 ∈ g := by
  rcases List.mem_map.mp h with ⟨p, hp, hpd⟩
  have hd1 : d.1 = p := by rw [← hpd]
  rw [hd1]
  exact mem_removal_targets hp

theorem group_from_versions {srpmName : String} {versions : List (List Pkg)} {g : List Pkg}
    (h : g ∈ sortDesc (versions.map (repOrder srpmName))) :
    ∃ g0 ∈ versions, g = repOrder srpmName g0 := by
  rcases List.mem_map.mp (mem_sortDesc h) with ⟨g0, hg0, he⟩
  exact ⟨g0, hg0, he.symm⟩

theorem decision_pkg_mem {repos : List Repo} {kb ks : Nat} {srpmName : String}
    {versions : List (List Pkg)} {d : Decision}
    (hd : d ∈ cleanup_previous_versions repos kb ks srpmName versions) :
    ∃ g0 ∈ versions, d.1 ∈ g0 := by
  simp only [cleanup_previous_versions] at hd
  split at hd
  · simp at hd
  · rcases List.mem_append.mp hd with hd2 | hd2
    · rcases List.mem_append.mp hd2 with hd3 | hd3
      · rcases List.mem_flatMap.mp hd3 with ⟨g, hg, hmem⟩
        have hgs : g ∈ sortDesc (versions.map (repOrder srpmName)) :=
          List.mem_of_mem_filter hg
        rcases group_from_versions hgs with ⟨g0, hg0, he⟩
        refine ⟨g0, hg0, ?_⟩
        have := targets_decision_mem hmem
        rw [he] at this
        exact mem_repOrder this
      · rcases List.mem_flatMap.mp hd3 with ⟨g, hg, hmem⟩
        have hg2 := List.drop_subset _ _ hg
        have hg3 := List.mem_of_mem_filter hg2
        have hgs : g ∈ sortDesc (versions.map (repOrder srpmName)) :=
          List.mem_of_mem_filter hg3
        rcases group_from_versions hgs with ⟨g0, hg0, he⟩
        refine ⟨g0, hg0, ?_⟩
        have := targets_decision_mem hmem
        rw [he] at this
        exact mem_repOrder this
    · rcases List.mem_flatMap.mp hd2 with ⟨g, hg, hmem⟩
      have hg2 := List.drop_subset _ _ hg
      have hg3 := List.mem_of_mem_filter hg2
      have hgs : g ∈ sortDesc (versions.map (repOrder srpmName)) :=
        List.mem_of_mem_filter hg3
      rcases group_from_versions hgs with ⟨g0, hg0, he⟩
      refine ⟨g0, hg0, ?_⟩
      have := targets_decision_mem hmem
      rw [he] at this
      exact mem_repOrder this

theorem addTo_pkgs {q p : Pkg} {k : String × String} :
    ∀ {vs : List ((String × String) × List Pkg)},
      q ∈ pkgsOfVersions (addTo vs k p) → q = p ∨ q ∈ pkgsOfVersions vs
  | [], h => by
    simp [addTo, pkgsOfVersions] at h
    exact Or.inl h
  | (k1, l) :: rest, h => by
    unfold addTo at h
    split at h
    · simp [pkgsOfVersions] at h ⊢
      tauto
    · simp only [pkgsOfVersions, List.flatMap_cons] at h ⊢
      rcases List.mem_append.mp h with h2 | h2
      · exact Or.inr (List.mem_append.mpr (Or.inl h2))
      · rcases @addTo_pkgs q p k rest h2 with h3 | h3
        · exact Or.inl h3
        · exact Or.inr (List.mem_append.mpr (Or.inr h3))

theorem go_all_same {repos : List Repo} {kb ks : Nat} {n : String} :
    ∀ (rows : List Pkg) (versions : List ((String × String) × List Pkg)),
      (∀ p ∈ rows, srpmNameOf p = some n) →
      cleanupArchGo repos kb ks (some n) versions rows = []
  | [], _, _ => rfl
  | p :: ps, versions, h => by
    have hp := h p (List.mem_cons_self p ps)
    unfold srpmNameOf at hp
    cases hs : p.sourcerpm with
    | none =>
      rw [hs] at hp
      simp at hp
    | some s =>
      rw [hs] at hp
      simp at hp
      have step : cleanupArchGo repos kb ks (some n) versions (p :: ps) =
          cleanupArchGo repos kb ks (some n) (addTo versions (versionKeyPair s) p) ps := by
        simp [cleanupArchGo, hs, hp]
      rw [step]
      exact go_all_same ps _ (fun q hq => h q (List.mem_cons_of_mem p hq))

theorem stableHeadEVRs_cons_none {ids : List Nat} {g : List Pkg} {gs : List (List Pkg)}
    (h : g.head? = none) : stableHeadEVRs ids (g :: gs) = stableHeadEVRs ids gs := by
  simp [stableHeadEVRs, List.filterMap_cons, h]

theorem stableHeadEVRs_cons_stable {ids : List Nat} {g : List Pkg} {gs : List (List Pkg)}
    {m : Pkg} (h : g.head? = some m) (hm : m.repo_id ∈ ids) :
    stableHeadEVRs ids (g :: gs) = evrOf m :: stableHeadEVRs ids gs := by
  simp [stableHeadEVRs, List.filterMap_cons, h, hm]

theorem stableHeadEVRs_cons_subset (ids : List Nat) (g : List Pkg) (gs : List (List Pkg)) :
    stableHeadEVRs ids gs ⊆ stableHeadEVRs ids (g :: gs) := by
  intro x hx
  unfold stableHeadEVRs
  rw [List.filterMap_cons]
  split
  · exact hx
  · exact List.mem_cons_of_mem _ hx

theorem scanFold_main (ids : List Nat) :
    ∀ (gs : List (List Pkg)) (l0 : EVR),
      ∃ l1, gs.foldl (scanStep ids) (some l0) = some l1 ∧
        (l1 = l0 ∨ l1 ∈ stableHeadEVRs ids gs) ∧
        labelCompare l0 l1 ≤ 0 ∧
        (∀ g ∈ gs, ∀ m, g.head? = some m → m.repo_id ∈ ids → labelCompare (evrOf m) l1 ≤ 0)
  | [], l0 =>
    ⟨l0, rfl, Or.inl rfl, by rw [labelCompare_refl], by intro g hg; simp at hg⟩
  | g :: gs, l0 => by
    cases hh : g.head? with
    | none =>
      have hstep : scanStep ids (some l0) g = some l0 := by simp [scanStep, hh]
      obtain ⟨l1, hfold, hmem, hb, hub⟩ := scanFold_main ids gs l0
      refine ⟨l1, ?_, ?_, hb, ?_⟩
      · rw [List.foldl_cons, hstep]; exact hfold
      · rcases hmem with hm | hm
        · exact Or.inl hm
        · exact Or.inr (by rw [stableHeadEVRs_cons_none hh]; exact hm)
      · intro g2 hg2 m hm hs
        rcases List.mem_cons.mp hg2 with he | ht
        · subst he; rw [hh] at hm; simp at hm
        · exact hub g2 ht m hm hs
    | some m1 =>
      by_cases hc : m1.repo_id ∈ ids ∧ labelCompare l0 (evrOf m1) < 0
      · have hstep : scanStep ids (some l0) g = some (evrOf m1) := by
          simp [scanStep, hh, hc]
        obtain ⟨l1, hfold, hmem, hb, hub⟩ := scanFold_main ids gs (evrOf m1)
        refine ⟨l1, ?_, ?_, ?_, ?_⟩
        · rw [List.foldl_cons, hstep]; exact hfold
        · right
          rw [stableHeadEVRs_cons_stable hh hc.1]
          rcases hmem with hm | hm
          · exact hm ▸ List.mem_cons_self _ _
          · exact List.mem_cons_of_mem _ hm
        · have h1 : labelCompare l0 (evrOf m1) = -1 := (labelCompare_lt_iff _ _).mp hc.2
          exact labelCompare_neg_le_trans _ _ _ h1 hb
        · intro g2 hg2 m hm hs
          rcases List.mem_cons.mp hg2 with he | ht
          · subst he
            rw [hh] at hm
            rw [← Option.some.inj hm]
            exact hb
          · exact hub g2 ht m hm hs
      · have hstep : scanStep ids (some l0) g = some l0 := by
          simp only [scanStep, hh]
          rw [if_neg hc]
        obtain ⟨l1, hfold, hmem, hb, hub⟩ := scanFold_main ids gs l0
        refine ⟨l1, ?_, ?_, hb, ?_⟩
        · rw [List.foldl_cons, hstep]; exact hfold
        · rcases hmem with hm | hm
          · exact Or.inl hm
          · exact Or.inr (stableHeadEVRs_cons_subset ids g gs hm)
        · intro g2 hg2 m hm hs
          rcases List.mem_cons.mp hg2 with he | ht
          · subst he
            rw [hh] at hm
            have hmm : m = m1 := (Option.some.inj hm).symm
            subst hmm
            have hnlt : ¬ labelCompare l0 (evrOf m) < 0 := fun hlt => hc ⟨hs, hlt⟩
            exact labelCompare_le_trans _ _ _ (labelCompare_nonneg_flip hnlt) hb
          · exact hub g2 ht m hm hs

theorem head_mem_list {α : Type} {l : List α} {a : α} (h : l.head? = some a) : a ∈ l := by
  cases l with
  | nil => simp at h
  | cons x t =>
    simp at h
    subst h
    exact List.mem_cons_self x t

theorem isStableHead_false_of {ids : List Nat} {g : List Pkg}
    (h : ∀ m, g.head? = some m → m.repo_id ∉ ids) : isStableHead ids g = false := by
  unfold isStableHead
  split
  · rfl
  · rename_i m hm
    simp [h m hm]

theorem scanFold_nonstable_heads (ids : List Nat) :
    ∀ (gs : List (List Pkg)) (l0 : EVR),
      (∀ g ∈ gs, ∀ m, g.head? = some m → m.repo_id ∉ ids) →
      gs.foldl (scanStep ids) (some l0) = some l0
  | [], _, _ => rfl
  | g :: gs, l0, h => by
    have hstep : scanStep ids (some l0) g = some l0 := by
      unfold scanStep
      split
      · rfl
      · rename_i m hm
        dsimp only
        rw [if_neg (fun hc => h g (List.mem_cons_self g gs) m hm hc.1)]
    rw [List.foldl_cons, hstep]
    exact scanFold_nonstable_heads ids gs l0
      (fun g2 hg2 => h g2 (List.mem_cons_of_mem g hg2))

theorem stable_trim_irrelevant (ids : List Nat) (inner : List (List Pkg))
    (h : ∀ g ∈ inner, isStableHead ids g = false) (ks1 ks2 : Nat)
    (f : List Pkg → List Decision) :
    ((inner.filter (isStableHead ids)).drop ks1).flatMap f =
      ((inner.filter (isStableHead ids)).drop ks2).flatMap f := by
  have hnil : inner.filter (isStableHead ids) = [] := by
    rw [List.filter_eq_nil_iff]
    intro g hg
    simp [h g hg]
  rw [hnil]
  simp

theorem lookupStat_bumpStat : ∀ (stats : List (Nat × Nat)) (id n : Nat),
    lookupStat (bumpStat stats id n) id = lookupStat stats id + n
  | [], id, n => by simp [bumpStat, lookupStat]
  | e :: rest, id, n => by
    unfold bumpStat
    by_cases h : e.1 = id
    · rw [if_pos h]
      unfold lookupStat
      rw [List.find?_cons_of_pos _ (by simp [h]), List.find?_cons_of_pos _ (by simp [h])]
    · rw [if_neg h]
      unfold lookupStat
      rw [List.find?_cons_of_neg _ (by simp [h]), List.find?_cons_of_neg _ (by simp [h])]
      exact lookupStat_bumpStat rest id n

theorem keys_addTo : ∀ (vs : List ((String × String) × List Pkg)) (k : String × String)
    (p : Pkg), (addTo vs k p).map Prod.fst =
      if k ∈ vs.map Prod.fst then vs.map Prod.fst else vs.map Prod.fst ++ [k]
  | [], k, p => by simp [addTo]
  | (k1, l) :: rest, k, p => by
    unfold addTo
    by_cases h : k1 = k
    · rw [if_pos h]
      simp [h]
    · rw [if_neg h]
      simp only [List.map_cons]
      rw [keys_addTo rest k p]
      by_cases h2 : k ∈ rest.map Prod.fst
      · simp [h2, Ne.symm h]
      · simp [h2, Ne.symm h]

theorem addTo_WF : ∀ {vs : List ((String × String) × List Pkg)} {k : String × String}
    {p : Pkg}, versionsWF vs → pkgKey p = some k → versionsWF (addTo vs k p)
  | [], k, p, _, hk => by
    constructor
    · intro e he q hq
      simp [addTo] at he
      subst he
      simp at hq
      subst hq
      exact hk
    · simp [addTo]
  | (k1, l) :: rest, k, p, hwf, hk => by
    unfold addTo
    by_cases h : k1 = k
    · rw [if_pos h]
      constructor
      · intro e he q hq
        rcases List.mem_cons.mp he with he1 | he1
        · subst he1
          rcases List.mem_append.mp hq with hq1 | hq1
          · exact hwf.1 (k1, l) (List.mem_cons_self _ _) q hq1
          · simp at hq1
            subst hq1
            rw [hk, h]
        · exact hwf.1 e (List.mem_cons_of_mem _ he1) q hq
      · have := hwf.2
        simpa using this
    · rw [if_neg h]
      have hrest : versionsWF rest := by
        constructor
        · intro e he q hq
          exact hwf.1 e (List.mem_cons_of_mem _ he) q hq
        · exact (List.nodup_cons.mp hwf.2).2
      have hih := addTo_WF hrest hk
      constructor
      · intro e he q hq
        rcases List.mem_cons.mp he with he1 | he1
        · subst he1
          exact hwf.1 (k1, l) (List.mem_cons_self _ _) q hq
        · exact hih.1 e he1 q hq
      · simp only [List.map_cons]
        rw [List.nodup_cons]
        constructor
        · rw [keys_addTo rest k p]
          have hk1 : k1 ∉ rest.map Prod.fst := (List.nodup_cons.mp hwf.2).1
          by_cases h2 : k ∈ rest.map Prod.fst
          · rw [if_pos h2]; exact hk1
          · rw [if_neg h2]
            intro hmem
            rcases List.mem_append.mp hmem with hmem1 | hmem1
            · exact hk1 hmem1
            · simp at hmem1
              exact h hmem1
        · exact hih.2

theorem foldlAdd_WF : ∀ (rows : List Pkg) (vs : List ((String × String) × List Pkg)),
    versionsWF vs →
    versionsWF (rows.foldl (fun vs p =>
      match p.sourcerpm with
      | none => vs
      | some s => addTo vs (versionKeyPair s) p) vs)
  | [], vs, h => h
  | p :: ps, vs, h => by
    rw [List.foldl_cons]
    apply foldlAdd_WF ps
    cases hs : p.sourcerpm with
    | none => simpa [hs] using h
    | some s =>
      simp only [hs]
      exact addTo_WF h (by simp [pkgKey, hs])

theorem buildVersions_WF (rows : List Pkg) : versionsWF (buildVersions rows) :=
  foldlAdd_WF rows [] ⟨by simp, by simp⟩

theorem nodup_key_entries {α β : Type} :
    ∀ {l : List (α × β)}, (l.map Prod.fst).Nodup →
      ∀ {g h : α × β}, g ∈ l → h ∈ l → g.1 = h.1 → g = h
  | [], _, g, h, hg, _, _ => by simp at hg
  | e :: t, hnd, g, h, hg, hh, hk => by
    rcases List.mem_cons.mp hg with hg1 | hg1 <;> rcases List.mem_cons.mp hh with hh1 | hh1
    · rw [hg1, hh1]
    · exfalso
      subst hg1
      have : h.1 ∈ t.map Prod.fst := List.mem_map_of_mem Prod.fst hh1
      rw [← hk] at this
      exact (List.nodup_cons.mp hnd).1 this
    · exfalso
      subst hh1
      have : g.1 ∈ t.map Prod.fst := List.mem_map_of_mem Prod.fst hg1
      rw [hk] at this
      exact (List.nodup_cons.mp hnd).1 this
    · exact nodup_key_entries (List.nodup_cons.mp hnd).2 hg1 hh1 hk

/-! ## Claim theorems -/

/-- C1 counterexample: the end-to-end distribution of the claim — a stable
repository holding the EVR 10 version group, a beta repository holding the
EVR 10, 9 and 8 version groups, keepBeta = 1 — produces no removal
decision at all when the architecture cleanup runs on its sourcerpm-sorted
rows, because the single source-identifier group is the last one of the
iteration and is never flushed; the claim expects decisions for EVR 9 and
EVR 8. -/
theorem c1_counterexample :
    cleanup_arch [rS, rB] 1 3 [s10, b10, b8, b9] = [] := by
  have h1 : splitFilename "foo-10-1.src.rpm" = ⟨"foo", "10", "1", "", "src"⟩ := by decide
  have h2 : splitFilename "foo-8-1.src.rpm" = ⟨"foo", "8", "1", "", "src"⟩ := by decide
  have h3 : splitFilename "foo-9-1.src.rpm" = ⟨"foo", "9", "1", "", "src"⟩ := by decide
  simp [cleanup_arch, cleanupArchGo, s10, b10, b8, b9, versionKeyPair, h1, h2, h3, addTo]

/-- C1 amended: the architecture cleanup of the claimed distribution emits
no removal decisions (the sole source group is never submitted to the
retention steps); had its version groups been handed to the retention
engine directly, the EVR 9 and EVR 8 groups would indeed be the ones
removed, but with reason ExpiredByStable — they lie strictly below the
latest stable EVR 10 — not Outdated. -/
theorem c1_amended :
    cleanup_arch [rS, rB] 1 3 [s10, b10, b8, b9] = [] ∧
    cleanup_previous_versions [rS, rB] 1 3 "foo" [[s10, b10], [b8], [b9]] =
      [(b9, RemovalReason.EXPIRED_BY_STABLE), (b8, RemovalReason.EXPIRED_BY_STABLE)] := by
  constructor
  · have h1 : splitFilename "foo-10-1.src.rpm" = ⟨"foo", "10", "1", "", "src"⟩ := by decide
    have h2 : splitFilename "foo-8-1.src.rpm" = ⟨"foo", "8", "1", "", "src"⟩ := by decide
    have h3 : splitFilename "foo-9-1.src.rpm" = ⟨"foo", "9", "1", "", "src"⟩ := by decide
    simp [cleanup_arch, cleanupArchGo, s10, b10, b8, b9, versionKeyPair, h1, h2, h3, addTo]
  · decide

/-- C2 counterexample: a source group whose first-scanned version group is
a stable EVR 5 build, followed by a version group that contains a stable
package but whose representative is a beta package of EVR 9.  The scan of
the source keeps EVR 5 as latest_stable_evr, while the specification
demands the maximum over representatives of stable-containing groups,
which is EVR 9. -/
theorem c2_counterexample :
    scanLatest (stableIds [rS, rB]) ([[pf5], [pb9, ps9]].map (repOrder "foo")) =
      some ⟨0, "5", "1"⟩ ∧
    specLatestStable [rS, rB] "foo" [[pf5], [pb9, ps9]] = some ⟨0, "9", "1"⟩ ∧
    (⟨0, "5", "1"⟩ : EVR) ≠ ⟨0, "9", "1"⟩ := by
  refine ⟨by decide, by decide, by decide⟩

/-- C3 counterexample: a source group whose two version groups (EVR 2 and
EVR 1) live only in a beta repository, with keepBeta = 1.  No version
group contains a stable package, yet the engine removes the EVR 1 group —
with reason ExpiredByStable, driven by the latest_stable_evr value that
was initialized from the first-scanned beta group. -/
theorem c3_counterexample :
    cleanup_previous_versions [onlyB] 1 3 "foo" [[q2], [q1]] =
      [(q1, RemovalReason.EXPIRED_BY_STABLE)] := by decide

/-- C4 counterexample: a removal-marked version group whose representative
lives in a writable stable repository but whose second package lives in a
readonly beta repository.  The engine emits a removal decision for that
second package even though its own repository is readonly — only the
representative repository was checked. -/
theorem c4_counterexample :
    cleanup_previous_versions [c4S, c4B] 3 1 "foo" [[sA], [s2, b2]] =
      [(s2, RemovalReason.OUTDATED), (b2, RemovalReason.OUTDATED)] ∧
    findRepo [c4S, c4B] b2.repo_id = some c4B ∧
    c4B.readonly = true := by
  refine ⟨by decide, by decide, by decide⟩

/-- C5 counterexample: a package whose source rpm matches the exclusion
pattern is not recorded in the package index at all — insertion leaves the
table unchanged — while the claim expects it to be recorded as present and
merely flagged non-removable. -/
theorem c5_counterexample :
    save_repo_package (some (fun _ => true)) [] 7 recX = [] ∧
    recX.rpm_sourcerpm = some "bar-1-1.src.rpm" := by
  refine ⟨by decide, by decide⟩

/-- C6 counterexample: two packages sharing the source rpm file name
foo-1.0-1.src.rpm but carrying different epochs (0 and 1) land in the same
version group, because the grouping key is the (version, release) pair
parsed from the source rpm file name and the epoch plays no part; the
claim expects distinct version groups for distinct epochs. -/
theorem c6_counterexample :
    buildVersions [cp1, cp2] = [(("1.0", "1"), [cp1, cp2])] ∧
    cp1.epoch ≠ cp2.epoch := by
  refine ⟨by decide, by decide⟩

/-- C7 counterexample: with a runner that fails on every path, regenerating
two repositories attempts only the first one — the raised exception aborts
the loop — while the claim expects regeneration to still be attempted for
every other repository. -/
theorem c7_counterexample :
    update_repodata (fun _ => 1) ["/r/os", "/r/beta"] = (["/r/os"], true) := by decide

/-- C8: the modelled comparator is antisymmetric — compare(a,b) equals
-compare(b,a) — hence compare(a,a) = 0, and it is transitive on any three
EVR triples with pairwise distinct EVRs. -/
theorem labelCompare_antisym_trans :
    (∀ a b : EVR, labelCompare a b = -(labelCompare b a)) ∧
    (∀ a : EVR, labelCompare a a = 0) ∧
    (∀ a b c : EVR, a ≠ b → b ≠ c → a ≠ c →
      labelCompare a b = -1 → labelCompare b c = -1 → labelCompare a c = -1) :=
  ⟨labelCompare_antisym, labelCompare_refl,
   fun a b c _ _ _ h1 h2 => labelCompare_trans_neg a b c h1 h2⟩

/-- C8 witness: the theorem applied at the concrete triples 1.0 < 2.0 <
3.0, discharging the distinctness and comparison hypotheses by
computation. -/
theorem labelCompare_antisym_trans_witness :
    labelCompare ⟨0, "1.0", "1"⟩ ⟨0, "3.0", "1"⟩ = -1 ∧
    labelCompare ⟨0, "1.0", "1"⟩ ⟨0, "1.0", "1"⟩ = 0 :=
  ⟨labelCompare_antisym_trans.2.2 ⟨0, "1.0", "1"⟩ ⟨0, "2.0", "1"⟩ ⟨0, "3.0", "1"⟩
      (by decide) (by decide) (by decide) (by decide) (by decide),
   labelCompare_antisym_trans.2.1 ⟨0, "1.0", "1"⟩⟩

/-- C2 amended: the latest_stable_evr value the scan produces is one of
the candidates — the first-scanned representative EVR regardless of
channel, or the EVR of a later representative whose own repository is
stable — and it is an upper bound, under the comparator, of the first
representative EVR and of every stable-representative EVR.  Group
membership of stable packages is irrelevant: only the representative
repository counts, and the first group contributes whatever its channel. -/
theorem scanLatest_max (ids : List Nat) (g0 : List Pkg) (gs : List (List Pkg))
    (m0 : Pkg) (l : EVR) (g : List Pkg) (m : Pkg)
    (h0 : g0.head? = some m0)
    (hl : scanLatest ids (g0 :: gs) = some l)
    (hg : g ∈ gs) (hm : g.head? = some m) (hs : m.repo_id ∈ ids) :
    l ∈ candidateEVRs ids (g0 :: gs) ∧
    labelCompare (evrOf m0) l ≤ 0 ∧
    labelCompare (evrOf m) l ≤ 0 := by
  unfold scanLatest at hl
  rw [List.foldl_cons] at hl
  have hstep : scanStep ids none g0 = some (evrOf m0) := by simp [scanStep, h0]
  rw [hstep] at hl
  obtain ⟨l1, hfold, hmem, hb, hub⟩ := scanFold_main ids gs (evrOf m0)
  rw [hfold] at hl
  obtain rfl : l1 = l := Option.some.inj hl
  refine ⟨?_, hb, hub g hg m hm hs⟩
  have hc : candidateEVRs ids (g0 :: gs) = evrOf m0 :: stableHeadEVRs ids gs := by
    simp [candidateEVRs, h0]
  rw [hc]
  rcases hmem with hm1 | hm1
  · rw [hm1]; exact List.mem_cons_self _ _
  · exact List.mem_cons_of_mem _ hm1

/-- C2 witness: the characterization applied to the concrete scan of a
stable EVR 5 group followed by a stable EVR 2 group. -/
theorem scanLatest_max_witness :
    (⟨0, "5", "1"⟩ : EVR) ∈ candidateEVRs [1] [[pf5], [sA]] ∧
    labelCompare (evrOf pf5) ⟨0, "5", "1"⟩ ≤ 0 ∧
    labelCompare (evrOf sA) ⟨0, "5", "1"⟩ ≤ 0 :=
  scanLatest_max [1] [pf5] [[sA]] pf5 ⟨0, "5", "1"⟩ [sA] sA rfl (by decide)
    (by decide) rfl (by decide)

/-- C3 amended: when no version group of the source-identifier group
contains a Stable-channel package the engine does not skip the retention
steps: latest_stable_evr becomes the representative EVR of the
first-scanned version group, cross-channel expiration and beta trimming
still run against it (the counterexample shows packages being removed),
and only the keep-stable step is vacuous — the result does not depend on
the keepStable setting. -/
theorem c3_amended (repos : List Repo) (kb ks1 ks2 : Nat) (srpmName : String)
    (versions : List (List Pkg)) (g0 : List Pkg) (m0 : Pkg)
    (hnp : ∀ g ∈ versions, ∀ p ∈ g, p.repo_id ∉ stableIds repos)
    (h0 : (versions.map (repOrder srpmName)).head? = some g0)
    (hm : g0.head? = some m0) :
    scanLatest (stableIds repos) (versions.map (repOrder srpmName)) = some (evrOf m0) ∧
    cleanup_previous_versions repos kb ks1 srpmName versions =
      cleanup_previous_versions repos kb ks2 srpmName versions := by
  have hheads : ∀ g ∈ versions.map (repOrder srpmName), ∀ m, g.head? = some m →
      m.repo_id ∉ stableIds repos := by
    intro g hg m hm2
    rcases List.mem_map.mp hg with ⟨g1, hg1, he⟩
    have hmem : m ∈ g := head_mem_list hm2
    rw [← he] at hmem
    exact hnp g1 hg1 m (mem_repOrder hmem)
  constructor
  · rcases hv : versions.map (repOrder srpmName) with _ | ⟨gg, rest⟩
    · rw [hv] at h0; simp at h0
    · rw [hv] at h0
      have hgg : gg = g0 := by simpa using h0
      subst hgg
      unfold scanLatest
      rw [List.foldl_cons]
      have hstep : scanStep (stableIds repos) none gg = some (evrOf m0) := by
        simp [scanStep, hm]
      rw [hstep]
      apply scanFold_nonstable_heads
      intro g hg m hm2
      refine hheads g ?_ m hm2
      rw [hv]
      exact List.mem_cons_of_mem gg hg
  · simp only [cleanup_previous_versions]
    split
    · rfl
    · congr 1
      apply stable_trim_irrelevant
      intro g hg
      apply isStableHead_false_of
      intro m hm2
      exact hheads g (mem_sortDesc (List.mem_of_mem_filter hg)) m hm2

/-- C3 witness: the amended claim applied to a mixed architecture — a
stable and a beta repository — where the source group's version groups
(EVR 9 and EVR 8) live only in the beta repository, with keepStable 0 on
one side and 5 on the other. -/
theorem c3_amended_witness :
    scanLatest (stableIds [rS, rB]) ([[b9], [b8]].map (repOrder "foo")) = some (evrOf b9) ∧
    cleanup_previous_versions [rS, rB] 1 0 "foo" [[b9], [b8]] =
      cleanup_previous_versions [rS, rB] 1 5 "foo" [[b9], [b8]] :=
  c3_amended [rS, rB] 1 0 5 "foo" [[b9], [b8]] [b9] b9 (by decide) (by decide) rfl

/-- C4 amended: readonly protection is enforced through the version-group
representative only: if every repository is readonly the engine emits no
decisions at all, a group whose representative repository is readonly is
skipped entirely, and otherwise a removal decision is emitted for every
package of the group — including packages whose own repository is
readonly. -/
theorem c4_amended :
    (∀ (repos : List Repo) (kb ks : Nat) (srpmName : String)
        (versions : List (List Pkg)),
      (∀ r ∈ repos, r.readonly = true) →
      cleanup_previous_versions repos kb ks srpmName versions = []) ∧
    (∀ (repos : List Repo) (packages : List Pkg) (p0 : Pkg) (rest : List Pkg)
        (repo : Repo),
      packages = p0 :: rest → findRepo repos p0.repo_id = some repo →
      repo.readonly = true → removal_targets repos packages = []) ∧
    (∀ (repos : List Repo) (packages : List Pkg) (p0 : Pkg) (rest : List Pkg)
        (repo : Repo),
      packages = p0 :: rest → findRepo repos p0.repo_id = some repo →
      repo.readonly = false → removal_targets repos packages = packages) := by
  refine ⟨?_, ?_, ?_⟩
  · intro repos kb ks srpmName versions hro
    simp only [cleanup_previous_versions]
    split
    · rfl
    · have hnil : ∀ (l : List (List Pkg)) (reason : RemovalReason),
          l.flatMap (fun g => (removal_targets repos g).map (fun p => (p, reason))) = [] := by
        intro l reason
        apply flatMap_const_nil
        intro g hg
        rw [removal_targets_all_readonly hro g]
        rfl
      rw [hnil, hnil, hnil]
      rfl
  · intro repos packages p0 rest repo hpk hr hro
    subst hpk
    unfold removal_targets
    simp [hr, hro]
  · intro repos packages p0 rest repo hpk hr hro
    subst hpk
    unfold removal_targets
    simp [hr, hro]

/-- C4 witness: the three parts applied to the readonly fixtures — a
fully readonly architecture yields nothing, a readonly representative
suppresses its group, a writable representative releases the whole group
including the readonly-owned second package. -/
theorem c4_amended_witness :
    cleanup_previous_versions [c4B] 0 0 "foo" [[b2]] = [] ∧
    removal_targets [c4B] [b2] = [] ∧
    removal_targets [c4S, c4B] [s2, b2] = [s2, b2] :=
  ⟨c4_amended.1 [c4B] 0 0 "foo" [[b2]] (by decide),
   c4_amended.2.1 [c4B] [b2] b2 [] c4B rfl (by decide) (by decide),
   c4_amended.2.2 [c4S, c4B] [s2, b2] s2 [b2] c4S rfl (by decide) (by decide)⟩

/-- C5 amended: a package whose non-empty source rpm name matches the
exclusion pattern is dropped at insertion time — the package table is left
unchanged, so the package is exempt from removal but also invisible to
reporting — while a non-matching package is appended to the table. -/
theorem c5_amended (excl : String → Bool) (table : List Pkg) (repoId : Nat)
    (p : CrPkg) (s : String) (hs : p.rpm_sourcerpm = some s) (hne : s ≠ "") :
    save_repo_package (some excl) table repoId p =
      (if excl s then table else table ++ [pkgOfRecord repoId p]) := by
  unfold save_repo_package
  rw [hs]
  dsimp only
  by_cases h : excl s = true
  · have hcond : s ≠ "" ∧ is_srpm_excluded (some excl) s = true :=
      ⟨hne, by simp [is_srpm_excluded, h]⟩
    rw [if_pos hcond, if_pos h]
  · have hcond : ¬ (s ≠ "" ∧ is_srpm_excluded (some excl) s = true) := by
      intro hc
      exact h (by simpa [is_srpm_excluded] using hc.2)
    rw [if_neg hcond, if_neg h]

/-- C5 witness: the amended claim applied to the always-matching pattern
and the concrete parsed package. -/
theorem c5_amended_witness :
    save_repo_package (some (fun _ => true)) [] 7 recX =
      (if (fun (_ : String) => true) "bar-1-1.src.rpm" then ([] : List Pkg)
       else [] ++ [pkgOfRecord 7 recX]) :=
  c5_amended (fun _ => true) [] 7 recX "bar-1-1.src.rpm" rfl (by decide)

/-- C6 amended: within one source-name run, two indexed packages belong to
the same version group exactly when they agree on the (version, release)
pair parsed from their source rpm file name; the packages own epoch —
and its own version and release — play no part in the grouping. -/
theorem c6_amended (rows : List Pkg) (g h : (String × String) × List Pkg) (p q : Pkg)
    (hg : g ∈ buildVersions rows) (hh : h ∈ buildVersions rows)
    (hp : p ∈ g.2) (hq : q ∈ h.2) :
    pkgKey p = pkgKey q ↔ g = h := by
  have hwf := buildVersions_WF rows
  constructor
  · intro hk
    have h1 : pkgKey p = some g.1 := hwf.1 g hg p hp
    have h2 : pkgKey q = some h.1 := hwf.1 h hh q hq
    have hk2 : (g.1 : String × String) = h.1 :=
      Option.some.inj (h1.symm.trans (hk.trans h2))
    exact nodup_key_entries hwf.2 hg hh hk2
  · intro he
    subst he
    rw [hwf.1 g hg p hp, hwf.1 g hg q hq]

/-- C6 witness: the grouping criterion applied to the two concrete
packages of distinct epoch that share the source key (1.0, 1). -/
theorem c6_amended_witness :
    pkgKey cp1 = pkgKey cp2 ↔
      ((("1.0", "1"), [cp1, cp2]) : (String × String) × List Pkg) =
        (("1.0", "1"), [cp1, cp2]) :=
  c6_amended [cp1, cp2] (("1.0", "1"), [cp1, cp2]) (("1.0", "1"), [cp1, cp2]) cp1 cp2
    (by decide) (by decide) (by decide) (by decide)

/-- C7 amended: a failing metadata regeneration raises out of the loop:
the failing repository is the last one attempted, later repositories are
not tried, and the run is aborted rather than continuing with a recorded
error. -/
theorem c7_amended (run : String → Nat) (p : String) (ps : List String)
    (h : run p ≠ 0) : update_repodata run (p :: ps) = ([p], true) := by
  unfold update_repodata
  have hc : create_repo run p = Except.error ("cannot createrepo " ++ p) := by
    unfold create_repo
    rw [if_pos h]
  rw [hc]

/-- C7 witness: the amended claim applied to a runner failing with return
code 2 on a three-repository list. -/
theorem c7_amended_witness :
    update_repodata (fun _ => 2) ["a", "b", "c"] = (["a"], true) :=
  c7_amended (fun _ => 2) "a" ["b", "c"] (by decide)

theorem flush_mem {repos : List Repo} {kb ks : Nat} {lastName : String}
    {versions : List ((String × String) × List Pkg)} {d : Decision}
    (hd : d ∈ (if versions.length > 1 then
        cleanup_previous_versions repos kb ks lastName (versions.map (fun e => e.2))
      else [])) :
    d.1 ∈ pkgsOfVersions versions := by
  split at hd
  · rcases decision_pkg_mem hd with ⟨g0, hg0, hdg⟩
    rcases List.mem_map.mp hg0 with ⟨e, he, hee⟩
    unfold pkgsOfVersions
    rw [List.mem_flatMap]
    exact ⟨e, he, by rw [hee]; exact hdg⟩
  · simp at hd

theorem go_tailrun (repos : List Repo) (kb ks : Nat) (n : String) :
    ∀ (rows : List Pkg) (last : Option String)
      (versions : List ((String × String) × List Pkg)),
      (∀ p ∈ rows, srpmNameOf p = some n) →
      (∀ q ∈ pkgsOfVersions versions, q ∉ rows) →
      ∀ d ∈ cleanupArchGo repos kb ks last versions rows, d.1 ∉ rows
  | [], _, _, _, _, d, hd => by simp [cleanupArchGo] at hd
  | t0 :: ts, last, versions, hnames, hv, d, hd => by
    have ht0 := hnames t0 (List.mem_cons_self t0 ts)
    unfold srpmNameOf at ht0
    cases hs : t0.sourcerpm with
    | none => rw [hs] at ht0; simp at ht0
    | some s =>
      rw [hs] at ht0
      simp at ht0
      by_cases hl : last = some (splitFilename s).name
      · have hall : cleanupArchGo repos kb ks last versions (t0 :: ts) = [] := by
          rw [hl, ht0]
          exact go_all_same (t0 :: ts) versions hnames
        rw [hall] at hd
        simp at hd
      · simp only [cleanupArchGo, hs] at hd
        rw [if_neg hl] at hd
        rcases List.mem_append.mp hd with hd1 | hd1
        · exact fun hmem => hv d.1 (flush_mem hd1) hmem
        · have hrest : cleanupArchGo repos kb ks (some (splitFilename s).name)
              (addTo [] (versionKeyPair s) t0) ts = [] := by
            rw [ht0]
            exact go_all_same ts _ (fun q hq => hnames q (List.mem_cons_of_mem t0 hq))
          rw [hrest] at hd1
          simp at hd1

theorem go_not_in_tail (repos : List Repo) (kb ks : Nat) (tail : List Pkg) (n : String)
    (ht : ∀ p ∈ tail, srpmNameOf p = some n) :
    ∀ (pre : List Pkg) (last : Option String)
      (versions : List ((String × String) × List Pkg)),
      (∀ q ∈ pkgsOfVersions versions, q ∉ tail) →
      (∀ p ∈ pre, p ∉ tail) →
      ∀ d ∈ cleanupArchGo repos kb ks last versions (pre ++ tail), d.1 ∉ tail
  | [], last, versions, hv, _, d, hd => by
    rw [List.nil_append] at hd
    exact go_tailrun repos kb ks n tail last versions ht hv d hd
  | p :: pre, last, versions, hv, hpre, d, hd => by
    rw [List.cons_append] at hd
    cases hs : p.sourcerpm with
    | none =>
      simp only [cleanupArchGo, hs] at hd
      exact go_not_in_tail repos kb ks tail n ht pre last versions hv
        (fun q hq => hpre q (List.mem_cons_of_mem p hq)) d hd
    | some s =>
      by_cases hl : last = some (splitFilename s).name
      · simp only [cleanupArchGo, hs] at hd
        rw [if_pos hl] at hd
        refine go_not_in_tail repos kb ks tail n ht pre last
          (addTo versions (versionKeyPair s) p) ?_
          (fun q hq => hpre q (List.mem_cons_of_mem p hq)) d hd
        intro q hq
        rcases addTo_pkgs hq with hq1 | hq1
        · rw [hq1]; exact hpre p (List.mem_cons_self p pre)
        · exact hv q hq1
      · simp only [cleanupArchGo, hs] at hd
        rw [if_neg hl] at hd
        rcases List.mem_append.mp hd with hd1 | hd1
        · exact fun hmem => hv d.1 (flush_mem hd1) hmem
        · refine go_not_in_tail repos kb ks tail n ht pre
            (some (splitFilename s).name) (addTo [] (versionKeyPair s) p) ?_
            (fun q hq => hpre q (List.mem_cons_of_mem p hq)) d hd1
          intro q hq
          rcases addTo_pkgs hq with hq1 | hq1
          · rw [hq1]; exact hpre p (List.mem_cons_self p pre)
          · simp [pkgsOfVersions] at hq1

/-- C9: no removal decision of an architecture cleanup ever targets a row
of the final source-identifier group of the sourcerpm-ordered scan: its
version groups are accumulated but never flushed, whatever the retention
settings.  The hypotheses say that the rows end with the run of the source
name n and that the earlier rows are distinct from that final run. -/
theorem c9_last_group (repos : List Repo) (kb ks : Nat) (pre tail : List Pkg)
    (n : String) (d : Decision)
    (ht : ∀ p ∈ tail, srpmNameOf p = some n)
    (hdisj : ∀ p ∈ pre, p ∉ tail)
    (hd : d ∈ cleanup_arch repos kb ks (pre ++ tail)) :
    d.1 ∉ tail :=
  go_not_in_tail repos kb ks tail n ht pre none []
    (by intro q hq; simp [pkgsOfVersions] at hq) hdisj d hd

/-- C9 witness: with the aaa builds ahead of the final zzz group and both
retention counts zero, the cleanup removes the aaa builds; the theorem
shows the emitted decision never touches the final zzz group. -/
theorem c9_last_group_witness :
    ((a2, RemovalReason.OUTDATED) : Decision).1 ∉ [z1] :=
  c9_last_group [onlyB] 0 0 [a1, a2] [z1] "zzz" (a2, RemovalReason.OUTDATED)
    (by decide) (by decide)
    (by
      have h1 : splitFilename "aaa-1-1.src.rpm" = ⟨"aaa", "1", "1", "", "src"⟩ := by decide
      have h2 : splitFilename "aaa-2-1.src.rpm" = ⟨"aaa", "2", "1", "", "src"⟩ := by decide
      have h3 : splitFilename "zzz-1-1.src.rpm" = ⟨"zzz", "1", "1", "", "src"⟩ := by decide
      simp only [List.cons_append, List.nil_append]
      simp [cleanup_arch, cleanupArchGo, a1, a2, z1, versionKeyPair, h1, h2, h3, addTo]
      decide)

/-- C10: when a version group is removed, every package of the group —
also one owned by another repository than the representative — is moved
from a path resolved against the representative repository root into the
backup directory named after the representative repository and its
architecture, and the removed count of the representative repository grows
by the group size. -/
theorem c10_rep_repo (backupDir : String) (repos : List Repo)
    (stats : List (Nat × Nat)) (packages : List Pkg) (p0 : Pkg) (rest : List Pkg)
    (repo : Repo) (p : Pkg)
    (hpk : packages = p0 :: rest) (hr : findRepo repos p0.repo_id = some repo)
    (hro : repo.readonly = false) (hp : p ∈ packages) :
    (repo.path ++ "/" ++ p.location, backupDir ++ "/" ++ repo.name ++ "/" ++ repo.arch)
      ∈ (cleanup_version backupDir repos stats packages).1 ∧
    lookupStat (cleanup_version backupDir repos stats packages).2 repo.repo_id =
      lookupStat stats repo.repo_id + packages.length := by
  subst hpk
  unfold cleanup_version
  simp only [List.head?_cons, hr, hro]
  constructor
  · exact List.mem_map.mpr ⟨p, hp, rfl⟩
  · exact lookupStat_bumpStat stats repo.repo_id _

/-- C10 witness: the theorem applied to the mixed group whose second
package lives in the beta repository while the representative lives in the
stable one: the move source is resolved against the stable repository root
and the stable counter takes the full group size. -/
theorem c10_rep_repo_witness :
    (c4S.path ++ "/" ++ b2.location, "/backup" ++ "/" ++ c4S.name ++ "/" ++ c4S.arch)
      ∈ (cleanup_version "/backup" [c4S, c4B] [] [s2, b2]).1 ∧
    lookupStat (cleanup_version "/backup" [c4S, c4B] [] [s2, b2]).2 c4S.repo_id =
      lookupStat [] c4S.repo_id + [s2, b2].length :=
  c10_rep_repo "/backup" [c4S, c4B] [] [s2, b2] s2 [b2] c4S b2 rfl (by decide) rfl
    (by decide)
